import Mathlib

/-!
Shallow embedding of the core pipeline of the sidebar plugin (src/src/App.tsx):
key normalization (`normalizeMatchValue`, `normalizeFolderName`), folder
grouping (`groupFilesByFolder`), image ordering (`orderFiles`) and the
reconciliation loop of `runUpload`.  Strings are modelled as Lean `String`
(lists of characters); the JavaScript regular expressions used by the source
are translated into explicit character-list scans.  The zh-CN
`localeCompare` collation is abstracted as a boolean comparison parameter
`lc` (meaning "compare result is ≤ 0"), and the external attachment write
(`uploadField.setValue`) is abstracted as an `Except`-returning parameter.
-/

/-- Character class of the JavaScript regex `\s` (same set as `String.trim`):
tab, LF, VT, FF, CR, space, NBSP, ogham space, the U+2000–U+200A range,
LS, PS, NNBSP, MMSP, ideographic space U+3000, BOM. -/
def jsWsCodes : List Nat :=
  [9, 10, 11, 12, 13, 32, 160, 5760, 8192, 8193, 8194, 8195, 8196, 8197,
   8198, 8199, 8200, 8201, 8202, 8232, 8233, 8239, 8287, 12288, 65279]

def isJsWs (c : Char) : Bool := jsWsCodes.contains c.toNat

/-- `replace(/\s+/g, " ")`: every maximal whitespace run becomes one ASCII
space.  The flag records whether the previous character was whitespace.
The source's preceding `replace(/　/g, " ")` is absorbed: U+3000 is in
`\s`, so collapsing runs directly gives the same result. -/
def collapseAux : Bool → List Char → List Char
  | _, [] => []
  | prevWs, c :: cs =>
    if isJsWs c then
      if prevWs then collapseAux true cs else ' ' :: collapseAux true cs
    else c :: collapseAux false cs

def collapseWs (l : List Char) : List Char := collapseAux false l

/-- Drop a maximal run of trailing whitespace characters (`trim`, right side). -/
def dropTrailingWs : List Char → List Char
  | [] => []
  | c :: cs =>
    let rest := dropTrailingWs cs
    if rest.isEmpty && isJsWs c then [] else c :: rest

/-- `String.prototype.trim`. -/
def trimWs (l : List Char) : List Char := dropTrailingWs (l.dropWhile isJsWs)

/-- `normalizeWhitespace` from App.tsx:541: collapse whitespace runs to a
single space, then trim. -/
def normalizeWhitespace (input : String) : String := ⟨trimWs (collapseWs input.data)⟩

/-- Tagged model of the JavaScript values that `normalizeMatchValue` probes:
null/undefined, strings, (integral) numbers, booleans, arrays, record-like
objects with the probed `text`/`text_arr`/`name`/`display`/`value` fields
(`none` models "absent or not of the probed type"), and any other value
through its generic `String(value)` rendering. -/
inductive JsValue : Type where
  | nullv : JsValue
  | str : String → JsValue
  | num : Int → JsValue
  | bool : Bool → JsValue
  | arr : List JsValue → JsValue
  | obj : Option String → Option (List JsValue) → Option String → Option String →
      Option String → JsValue
  | other : String → JsValue

def digitChar (d : Nat) : Char :=
  match d with
  | 0 => '0' | 1 => '1' | 2 => '2' | 3 => '3' | 4 => '4'
  | 5 => '5' | 6 => '6' | 7 => '7' | 8 => '8' | _ => '9'

/-- Decimal digits of `n`, most significant first; the first argument is
structural fuel (`n` itself is always enough). -/
def natToChars : Nat → Nat → List Char
  | 0, _ => []
  | fuel + 1, n => if n = 0 then [] else natToChars fuel (n / 10) ++ [digitChar (n % 10)]

def natToString (n : Nat) : String := if n = 0 then "0" else ⟨natToChars n n⟩

/-- `String(value)` for an integral number. -/
def intToString (i : Int) : String :=
  if i < 0 then "-" ++ natToString i.natAbs else natToString i.toNat

/-- `Array.prototype.join(",")`. -/
def joinComma : List String → String
  | [] => ""
  | s :: rest => if rest.isEmpty then s else s ++ "," ++ joinComma rest

/-- Body of `normalizeMatchValue` (App.tsx:493), by structural recursion on
remaining depth budget: the source guards `depth > 3` and recurses with
`depth + 1`, i.e. the budget `4 - depth` reaches 0 exactly when the guard
fires. -/
def nmvAux : Nat → JsValue → String
  | 0, _ => ""
  | fuel + 1, v =>
    match v with
    | .nullv => ""
    | .str s => normalizeWhitespace s
    | .num n => intToString n
    | .bool b => if b then "true" else "false"
    | .arr xs => joinComma (((xs.map (nmvAux fuel)).filter (fun s => s != "")))
    | .obj text textArr nm disp val =>
      (match text with
       | some t => normalizeWhitespace t
       | none =>
         match textArr with
         | some ts => joinComma (((ts.map (nmvAux fuel)).filter (fun s => s != "")))
         | none =>
           match nm with
           | some t => normalizeWhitespace t
           | none =>
             match disp with
             | some t => normalizeWhitespace t
             | none =>
               match val with
               | some t => normalizeWhitespace t
               | none => normalizeWhitespace "[object Object]")
    | .other s => normalizeWhitespace s

/-- `normalizeMatchValue(value, depth)` from App.tsx:493. -/
def normalizeMatchValue (value : JsValue) (depth : Nat) : String :=
  nmvAux (4 - depth) value

/-- `base.replace(/\s*\(\d+\)\s*$/, "")`: strip one trailing copy-number
suffix such as " (1)". -/
def stripCopyNum (s : String) : String :=
  let r := s.data.reverse
  match r.dropWhile isJsWs with
  | ')' :: r2 =>
    if (r2.takeWhile Char.isDigit).isEmpty then s
    else
      match r2.dropWhile Char.isDigit with
      | '(' :: r4 => ⟨(r4.dropWhile isJsWs).reverse⟩
      | _ => s
  | _ => s

/-- `.replace(/\s*-\s*副本$/, "")`: strip one trailing "copy" marker. -/
def stripFuben (s : String) : String :=
  match s.data.reverse with
  | '本' :: '副' :: r2 =>
    (match r2.dropWhile isJsWs with
     | '-' :: r4 => ⟨(r4.dropWhile isJsWs).reverse⟩
     | _ => s)
  | _ => s

/-- `normalizeFolderName` from App.tsx:522. -/
def normalizeFolderName (folder : String) : String :=
  let base := normalizeWhitespace folder
  let cleaned := stripFuben (stripCopyNum base)
  normalizeMatchValue (JsValue.str cleaned) 0

/-- A selected file: `name` and the (possibly empty) `webkitRelativePath`. -/
structure RawFile where
  name : String
  relativePath : String
deriving DecidableEq

/-- `split(/[\\/]/)` on a character list: split on `/` and `\`, keeping
empty segments; the result is never empty. -/
def splitSegsChars : List Char → List (List Char)
  | [] => [[]]
  | c :: cs =>
    if c = '/' ∨ c = '\\' then [] :: splitSegsChars cs
    else
      match splitSegsChars cs with
      | [] => [[c]]
      | h :: t => (c :: h) :: t

def splitPath (s : String) : List String := (splitSegsChars s.data).map (fun l => ⟨l⟩)

/-- `getRelativePath` from App.tsx:483: `webkitRelativePath || name || ""`,
with one leading `/` stripped. -/
def getRelativePath (f : RawFile) : String :=
  let path := if f.relativePath = "" then f.name else f.relativePath
  match path.data with
  | '/' :: rest => ⟨rest⟩
  | _ => path

/-- `relative.split(/[\\/]/).filter(Boolean)`. -/
def pathParts (f : RawFile) : List String :=
  (splitPath (getRelativePath f)).filter (fun s => s != "")

/-- The inferred root: first segment of the first file's relative path
(`firstPath.split(/[\\/]/)[0]`). -/
def rootOf (files : List RawFile) : String :=
  match files with
  | [] => ""
  | f :: _ => (splitPath (getRelativePath f)).headD ""

/-- The file's segments after dropping the inferred root when it matches. -/
def strippedParts (root : String) (f : RawFile) : List String :=
  match pathParts f with
  | [] => []
  | p0 :: rest => if p0 = root then rest else p0 :: rest

/-- Group key assigned to one file by the loop body of `groupFilesByFolder`:
`none` when the file has no non-empty segments or sits too shallow
(fewer than 2 segments after root-stripping). -/
def fileFolder (root : String) (f : RawFile) : Option String :=
  match strippedParts root f with
  | a :: _ :: _ => some a
  | _ => none

/-- `grouped[folder] = grouped[folder] || []; grouped[folder].push(file)` on
an insertion-ordered association list. -/
def addToGroup (g : List (String × List RawFile)) (k : String) (f : RawFile) :
    List (String × List RawFile) :=
  match g with
  | [] => [(k, [f])]
  | (k0, fs) :: rest =>
    if k0 = k then (k0, fs ++ [f]) :: rest else (k0, fs) :: addToGroup rest k f

def lookupGroup (g : List (String × List RawFile)) (k : String) : Option (List RawFile) :=
  match g with
  | [] => none
  | (k0, fs) :: rest => if k0 = k then some fs else lookupGroup rest k

def membersOf (g : List (String × List RawFile)) (k : String) : List RawFile :=
  (lookupGroup g k).getD []

/-- Loop body of `groupFilesByFolder`: skip homeless files, append the rest
to their folder's group. -/
def groupStep (root : String) (g : List (String × List RawFile)) (f : RawFile) :
    List (String × List RawFile) :=
  match fileFolder root f with
  | some folder => addToGroup g folder f
  | none => g

/-- `groupFilesByFolder` from App.tsx:458. -/
def groupFilesByFolder (files : List RawFile) : List (String × List RawFile) :=
  if files.isEmpty then [] else files.foldl (groupStep (rootOf files)) []

/-- The directory segment the file directly sits in: the last segment of its
relative path before the file name itself. -/
def immediateParent (f : RawFile) : Option String := (pathParts f).dropLast.getLast?

/-- Does `s` contain `pat` as a prefix of character lists? -/
def isPrefixChars : List Char → List Char → Bool
  | [], _ => true
  | _ :: _, [] => false
  | p :: ps, c :: cs => p == c && isPrefixChars ps cs

/-- `String.prototype.includes`: substring containment. -/
def containsSubChars : List Char → List Char → Bool
  | pat, [] => pat.isEmpty
  | pat, l@(_ :: cs) => isPrefixChars pat l || containsSubChars pat cs

def containsSub (s pat : String) : Bool := containsSubChars pat.data s.data

/-- `name.replace(/\.[^.]+$/, "")`: drop the final extension when the name
has a dot followed by at least one non-dot character. -/
def baseName (name : String) : String :=
  let r := name.data.reverse
  let ext := r.takeWhile (fun c => c != '.')
  match r.dropWhile (fun c => c != '.') with
  | '.' :: rest => if ext.isEmpty then name else ⟨rest.reverse⟩
  | _ => name

/-- Maximal digit runs of a character list (`base.match(/\d+/g)`), in order.
The accumulator holds the current run reversed. -/
def digitRunsAux : List Char → List Char → List (List Char)
  | [], acc => if acc.isEmpty then [] else [acc.reverse]
  | c :: cs, acc =>
    if c.isDigit then digitRunsAux cs (c :: acc)
    else if acc.isEmpty then digitRunsAux cs []
    else acc.reverse :: digitRunsAux cs []

def digitRuns (l : List Char) : List (List Char) := digitRunsAux l []

/-- `parseInt` on a digit run. -/
def digitsToNat (l : List Char) : Nat := l.foldl (fun n c => 10 * n + (c.toNat - 48)) 0

/-- Integer the ordering buckets a non-cover file by: `parseInt` of the last
maximal digit run of the base name, when one exists. -/
def lastDigitVal (name : String) : Option Nat :=
  match (digitRuns (baseName name).data).getLast? with
  | some run => some (digitsToNat run)
  | none => none

inductive Bucket : Type where
  | cover : Bucket
  | numbered : Nat → Bucket
  | other : Bucket
deriving DecidableEq

/-- Classification pass of `orderFiles` (App.tsx:554) for one file. -/
def classifyFile (kw : String) (f : RawFile) : Bucket :=
  if kw != "" && containsSub f.name kw then .cover
  else
    match lastDigitVal f.name with
    | some v => .numbered v
    | none => .other

/-- The three buckets (cover, numbered-with-value, other), each in input
order, exactly as the `forEach` push loop builds them. -/
def classifyFiles (kw : String) :
    List RawFile → List RawFile × List (Nat × RawFile) × List RawFile
  | [] => ([], [], [])
  | f :: fs =>
    let rest := classifyFiles kw fs
    match classifyFile kw f with
    | .cover => (f :: rest.1, rest.2.1, rest.2.2)
    | .numbered v => (rest.1, (v, f) :: rest.2.1, rest.2.2)
    | .other => (rest.1, rest.2.1, f :: rest.2.2)

/-- Stable insertion into a sorted list: the new element goes before the
first element `b` with `le a b` (comparator result ≤ 0). -/
def insertSorted (le : α → α → Bool) (a : α) : List α → List α
  | [] => [a]
  | b :: bs => if le a b then a :: b :: bs else b :: insertSorted le a bs

/-- Stable sort by a boolean "comparator ≤ 0" predicate, modelling
`Array.prototype.sort`. -/
def sortLe (le : α → α → Bool) : List α → List α
  | [] => []
  | a :: rest => insertSorted le a (sortLe le rest)

/-- `a.name.localeCompare(b.name, "zh-CN") <= 0` with the collation
abstracted as `lc`. -/
def nameLe (lc : String → String → Bool) (a b : RawFile) : Bool := lc a.name b.name

/-- `a.value - b.value || a.file.name.localeCompare(b.file.name) <= 0`. -/
def numLe (lc : String → String → Bool) (a b : Nat × RawFile) : Bool :=
  Nat.blt a.1 b.1 || (Nat.beq a.1 b.1 && lc a.2.name b.2.name)

/-- `orderFiles` from App.tsx:549: cover bucket, then numbered bucket by
extracted integer ascending, then the rest, concatenated in tier order. -/
def orderFiles (lc : String → String → Bool) (files : List RawFile)
    (priorityKeyword : String) : List RawFile :=
  let buckets := classifyFiles priorityKeyword files
  sortLe (nameLe lc) buckets.1 ++ (sortLe (numLe lc) buckets.2.1).map Prod.snd ++
    sortLe (nameLe lc) buckets.2.2

/-- Per-group result of the `runUpload` loop.  `matched` records the list
handed to the external write. -/
inductive Outcome : Type where
  | matched : String → List RawFile → Outcome
  | failedWrite : String → String → Outcome
  | skippedNoMatch : Outcome
  | skippedEmpty : Outcome
deriving DecidableEq

def isMatchedO : Outcome → Bool
  | .matched _ _ => true
  | _ => false

def isFailedO : Outcome → Bool
  | .failedWrite _ _ => true
  | _ => false

def isSkippedO : Outcome → Bool
  | .skippedNoMatch => true
  | .skippedEmpty => true
  | _ => false

/-- `Map.set`: overwrite in place or append. -/
def mapSet (m : List (String × String)) (k v : String) : List (String × String) :=
  match m with
  | [] => [(k, v)]
  | (k0, v0) :: rest => if k0 = k then (k0, v) :: rest else (k0, v0) :: mapSet rest k v

def mapGet (m : List (String × String)) (k : String) : Option String :=
  match m with
  | [] => none
  | (k0, v0) :: rest => if k0 = k then some v0 else mapGet rest k

/-- MatchIndex construction (App.tsx:188): normalize each record's match
field value and insert only non-empty keys, later records overwriting. -/
def buildMatchMap (records : List (String × JsValue)) : List (String × String) :=
  records.foldl
    (fun m r =>
      let key := normalizeMatchValue r.2 0
      if key = "" then m else mapSet m key r.1)
    []

/-- `Math.max(1, maxImages || 0)` as a `Nat` take-count. -/
def effectiveLimit (maxImages : Int) : Nat := (max 1 maxImages).toNat

/-- One iteration of the per-group loop (App.tsx:224): look up the
normalized folder key, order, cap, and issue the write, converting a write
rejection into a per-group failure. -/
def processGroup (matchMap : List (String × String))
    (write : String → List RawFile → Except String Unit)
    (lc : String → String → Bool) (limit : Nat) (kw : String)
    (g : String × List RawFile) : Outcome :=
  match mapGet matchMap (normalizeFolderName g.1) with
  | none => .skippedNoMatch
  | some recordId =>
    let ordered := orderFiles lc g.2 kw
    let uploadList := ordered.take limit
    if uploadList.isEmpty then .skippedEmpty
    else
      match write recordId uploadList with
      | .ok _ => .matched recordId uploadList
      | .error _msg => .failedWrite recordId _msg

structure RunResult where
  success : Nat
  failed : Nat
  skipped : Nat
  outcomes : List Outcome
deriving DecidableEq

/-- The reconciliation run (App.tsx:182–273) after the match field values
have been read: build the MatchIndex, abort with `none` when no groups were
detected, otherwise process every group in order and count the outcomes. -/
def runUpload (records : List (String × JsValue)) (groups : List (String × List RawFile))
    (write : String → List RawFile → Except String Unit)
    (lc : String → String → Bool) (maxImages : Int) (kw : String) : Option RunResult :=
  match groups with
  | [] => none
  | _ :: _ =>
    let matchMap := buildMatchMap records
    let limit := effectiveLimit maxImages
    let outcomes := groups.map (processGroup matchMap write lc limit kw)
    some ⟨outcomes.countP isMatchedO, outcomes.countP isFailedO,
      outcomes.countP isSkippedO, outcomes⟩

/-! Specification predicates used by the theorems. -/

/-- Head character (if any) is not whitespace. -/
def noWsHead : List Char → Bool
  | [] => true
  | c :: _ => !isJsWs c

/-- Every whitespace character is a single ASCII space followed by a
non-whitespace character (or the end). -/
def spacedB : List Char → Bool
  | [] => true
  | c :: cs => (if isJsWs c then c == ' ' && noWsHead cs else true) && spacedB cs

/-- Strings fixed by `normalizeWhitespace`, characterized structurally. -/
def CanonStr (s : String) : Prop := spacedB s.data = true ∧ trimWs s.data = s.data

/-! Lemmas about whitespace collapsing and trimming. -/

theorem string_mk_data (s : String) : String.mk s.data = s := by cases s; rfl

theorem string_data_append (a b : String) : (a ++ b).data = a.data ++ b.data := by
  cases a; cases b; rfl

theorem str_ne_empty_of_data (s : String) (h : s.data ≠ []) : s ≠ "" := by
  intro he; exact h (by rw [he])

theorem data_ne_of_str_ne (s : String) (h : s ≠ "") : s.data ≠ [] := by
  intro he
  exact h (by rw [← string_mk_data s, he])

theorem noWsHead_collapseAux (l : List Char) : noWsHead (collapseAux true l) = true := by
  induction l with
  | nil => rfl
  | cons c cs ih =>
    cases hws : isJsWs c with
    | true => simpa [collapseAux, hws] using ih
    | false => simp [collapseAux, hws, noWsHead]

theorem spaced_collapseAux (l : List Char) : ∀ b, spacedB (collapseAux b l) = true := by
  induction l with
  | nil => intro b; rfl
  | cons c cs ih =>
    intro b
    cases hws : isJsWs c with
    | true =>
      cases b with
      | true => simpa [collapseAux, hws] using ih true
      | false =>
        simp only [collapseAux, hws, if_true, Bool.false_eq_true, if_false]
        simp [spacedB, noWsHead_collapseAux, ih true, isJsWs]
    | false => simp [collapseAux, hws, spacedB, ih false]

theorem spaced_tail {c : Char} {cs : List Char} (h : spacedB (c :: cs) = true) :
    spacedB cs = true := by
  simp only [spacedB, Bool.and_eq_true] at h
  exact h.2

theorem spaced_dropWhile (p : Char → Bool) (l : List Char) (h : spacedB l = true) :
    spacedB (l.dropWhile p) = true := by
  induction l with
  | nil => exact h
  | cons c cs ih =>
    cases hp : p c with
    | true => simp only [List.dropWhile, hp]; exact ih (spaced_tail h)
    | false => simpa [List.dropWhile, hp] using h

theorem noWsHead_dtw (l : List Char) (h : noWsHead l = true) :
    noWsHead (dropTrailingWs l) = true := by
  cases l with
  | nil => exact h
  | cons c cs =>
    simp only [dropTrailingWs]
    split
    · rfl
    · simpa [noWsHead] using h

theorem spaced_dtw (l : List Char) (h : spacedB l = true) :
    spacedB (dropTrailingWs l) = true := by
  induction l with
  | nil => exact h
  | cons c cs ih =>
    simp only [dropTrailingWs]
    split
    · rfl
    · have h2 := spaced_tail h
      simp only [spacedB, Bool.and_eq_true] at h ⊢
      refine ⟨?_, ih h2⟩
      cases hws : isJsWs c with
      | false => simp
      | true =>
        simp only [hws, if_true] at h ⊢
        simp only [Bool.and_eq_true] at h ⊢
        obtain ⟨⟨hc, hh⟩, _⟩ := h
        refine ⟨hc, ?_⟩
        cases cs with
        | nil => rfl
        | cons d ds => exact noWsHead_dtw _ hh

theorem collapseAux_self (l : List Char) :
    ∀ b, spacedB l = true → (b = true → noWsHead l = true) → collapseAux b l = l := by
  induction l with
  | nil => intro b _ _; rfl
  | cons c cs ih =>
    intro b hs hb
    have hs2 : spacedB cs = true := spaced_tail hs
    cases hws : isJsWs c with
    | false =>
      cases b <;>
        simp [collapseAux, hws, ih false hs2 (fun h => by cases h)]
    | true =>
      cases b with
      | true =>
        have := hb rfl
        simp [noWsHead, hws] at this
      | false =>
        simp only [spacedB, hws, if_true, Bool.and_eq_true, beq_iff_eq] at hs
        obtain ⟨⟨hc, hh⟩, _⟩ := hs
        simp only [collapseAux, hws, if_true, Bool.false_eq_true, if_false]
        rw [ih true hs2 (fun _ => hh), hc]

theorem noWsHead_dropWhile_ws (l : List Char) : noWsHead (l.dropWhile isJsWs) = true := by
  induction l with
  | nil => rfl
  | cons c cs ih =>
    cases hws : isJsWs c with
    | true => simpa [List.dropWhile, hws] using ih
    | false => simp [List.dropWhile, hws, noWsHead]

theorem dropWhile_ws_of_noWsHead (l : List Char) (h : noWsHead l = true) :
    l.dropWhile isJsWs = l := by
  cases l with
  | nil => rfl
  | cons c cs =>
    simp only [noWsHead, Bool.not_eq_true'] at h
    simp [List.dropWhile, h]

theorem dtw_idem (l : List Char) : dropTrailingWs (dropTrailingWs l) = dropTrailingWs l := by
  induction l with
  | nil => rfl
  | cons c cs ih =>
    simp only [dropTrailingWs]
    split
    · rfl
    · rename_i hcond
      simp only [dropTrailingWs, ih]
      rw [if_neg hcond]

theorem trim_idem (l : List Char) : trimWs (trimWs l) = trimWs l := by
  have h1 : noWsHead (l.dropWhile isJsWs) = true := noWsHead_dropWhile_ws l
  have h2 : noWsHead (dropTrailingWs (l.dropWhile isJsWs)) = true := noWsHead_dtw _ h1
  show dropTrailingWs ((dropTrailingWs (l.dropWhile isJsWs)).dropWhile isJsWs) =
    dropTrailingWs (l.dropWhile isJsWs)
  rw [dropWhile_ws_of_noWsHead _ h2, dtw_idem]

theorem canon_fix {s : String} (h : CanonStr s) : normalizeWhitespace s = s := by
  obtain ⟨h1, h2⟩ := h
  show String.mk (trimWs (collapseAux false s.data)) = s
  rw [collapseAux_self s.data false h1 (fun h => by cases h), h2, string_mk_data]

theorem canon_nw (s : String) : CanonStr (normalizeWhitespace s) := by
  constructor
  · exact spaced_dtw _ (spaced_dropWhile _ _ (spaced_collapseAux _ false))
  · exact trim_idem _

theorem nw_idem (s : String) :
    normalizeWhitespace (normalizeWhitespace s) = normalizeWhitespace s :=
  canon_fix (canon_nw s)

/-! Canonicity of whitespace-free strings (number and boolean renderings). -/

theorem spaced_of_allNonWs (l : List Char) (h : ∀ c ∈ l, isJsWs c = false) :
    spacedB l = true := by
  induction l with
  | nil => rfl
  | cons c cs ih =>
    have hc : isJsWs c = false := h c (by simp)
    simp only [spacedB, hc, Bool.false_eq_true, if_false, Bool.true_and]
    exact ih (fun d hd => h d (by simp [hd]))

theorem dtw_of_allNonWs (l : List Char) (h : ∀ c ∈ l, isJsWs c = false) :
    dropTrailingWs l = l := by
  induction l with
  | nil => rfl
  | cons c cs ih =>
    have hc : isJsWs c = false := h c (by simp)
    simp only [dropTrailingWs, hc, Bool.and_false, Bool.false_eq_true, if_false]
    rw [ih (fun d hd => h d (by simp [hd]))]

theorem noWsHead_of_allNonWs (l : List Char) (h : ∀ c ∈ l, isJsWs c = false) :
    noWsHead l = true := by
  cases l with
  | nil => rfl
  | cons c cs => simp [noWsHead, h c (by simp)]

theorem canon_of_allNonWs (s : String) (h : ∀ c ∈ s.data, isJsWs c = false) :
    CanonStr s := by
  refine ⟨spaced_of_allNonWs _ h, ?_⟩
  show dropTrailingWs (s.data.dropWhile isJsWs) = s.data
  rw [dropWhile_ws_of_noWsHead _ (noWsHead_of_allNonWs _ h), dtw_of_allNonWs _ h]

theorem isJsWs_digitChar (d : Nat) : isJsWs (digitChar d) = false := by
  unfold digitChar
  split <;> decide

theorem natToChars_allNonWs (fuel : Nat) :
    ∀ n c, c ∈ natToChars fuel n → isJsWs c = false := by
  induction fuel with
  | zero => intro n c hc; cases hc
  | succ fuel ih =>
    intro n c hc
    simp only [natToChars] at hc
    split at hc
    · cases hc
    · rcases List.mem_append.mp hc with h1 | h2
      · exact ih _ _ h1
      · simp only [List.mem_singleton] at h2
        rw [h2]; exact isJsWs_digitChar _

theorem natToString_allNonWs (n : Nat) : ∀ c ∈ (natToString n).data, isJsWs c = false := by
  intro c hc
  unfold natToString at hc
  split at hc
  · have h0 : c ∈ ['0'] := hc
    simp only [List.mem_singleton] at h0
    rw [h0]; decide
  · exact natToChars_allNonWs _ _ _ hc

theorem canon_natToString (n : Nat) : CanonStr (natToString n) :=
  canon_of_allNonWs _ (natToString_allNonWs n)

theorem canon_intToString (i : Int) : CanonStr (intToString i) := by
  unfold intToString
  split
  · refine canon_of_allNonWs _ ?_
    intro c hc
    rw [string_data_append] at hc
    rcases List.mem_append.mp hc with h | h
    · have h1 : c ∈ ['-'] := h
      simp only [List.mem_singleton] at h1
      rw [h1]; decide
    · exact natToString_allNonWs _ _ h
  · exact canon_natToString _

/-! Canonicity of comma-joined lists of canonical non-empty strings. -/

theorem noWsHead_append_left (a b : List Char) (h : a ≠ []) :
    noWsHead (a ++ b) = noWsHead a := by
  cases a with
  | nil => exact absurd rfl h
  | cons c cs => rfl

theorem spaced_append (a b : List Char) (ha : spacedB a = true) (hb : spacedB b = true)
    (hhb : noWsHead b = true) : spacedB (a ++ b) = true := by
  induction a with
  | nil => exact hb
  | cons c a2 ih =>
    have ha2 : spacedB a2 = true := spaced_tail ha
    simp only [List.cons_append, spacedB, Bool.and_eq_true]
    refine ⟨?_, ih ha2⟩
    cases hws : isJsWs c with
    | false => simp [hws]
    | true =>
      simp only [spacedB, hws, if_true, Bool.and_eq_true] at ha
      obtain ⟨⟨hc, hh⟩, _⟩ := ha
      simp only [if_true, Bool.and_eq_true]
      refine ⟨hc, ?_⟩
      cases a2 with
      | nil => exact hhb
      | cons d ds => simpa [noWsHead] using hh

theorem isEmpty_false_of_ne_nil {α : Type} (l : List α) (h : l ≠ []) :
    l.isEmpty = false := by
  cases l with
  | nil => exact absurd rfl h
  | cons x xs => rfl

theorem dtw_append (a b : List Char) (hb1 : b ≠ []) (hb2 : dropTrailingWs b = b) :
    dropTrailingWs (a ++ b) = a ++ b := by
  induction a with
  | nil => exact hb2
  | cons c a2 ih =>
    have hne : (a2 ++ b).isEmpty = false :=
      isEmpty_false_of_ne_nil _ (List.append_ne_nil_of_right_ne_nil a2 hb1)
    simp [List.cons_append, dropTrailingWs, ih, hne]

theorem dtw_length_le (l : List Char) : (dropTrailingWs l).length ≤ l.length := by
  induction l with
  | nil => simp [dropTrailingWs]
  | cons x xs ih =>
    simp only [dropTrailingWs]
    split
    · simp
    · simpa using ih

theorem dropWhile_length_le (p : Char → Bool) (l : List Char) :
    (l.dropWhile p).length ≤ l.length := by
  induction l with
  | nil => simp
  | cons x xs ih =>
    cases hp : p x with
    | true =>
      simp only [List.dropWhile, hp]
      exact Nat.le_trans ih (Nat.le_succ _)
    | false => simp [List.dropWhile, hp]

theorem noWsHead_of_trim_fix (l : List Char) (h : trimWs l = l) : noWsHead l = true := by
  cases l with
  | nil => rfl
  | cons c cs =>
    cases hws : isJsWs c with
    | false => simp [noWsHead, hws]
    | true =>
      exfalso
      have hlen : (trimWs (c :: cs)).length ≤ cs.length := by
        show (dropTrailingWs ((c :: cs).dropWhile isJsWs)).length ≤ cs.length
        simp only [List.dropWhile, hws]
        calc (dropTrailingWs (cs.dropWhile isJsWs)).length
            ≤ (cs.dropWhile isJsWs).length := dtw_length_le _
          _ ≤ cs.length := dropWhile_length_le _ _
      have := congrArg List.length h
      simp only [List.length_cons] at this
      omega

theorem dtw_of_trim_fix (l : List Char) (h : trimWs l = l) : dropTrailingWs l = l := by
  have hh := noWsHead_of_trim_fix l h
  show dropTrailingWs l = l
  have h2 : trimWs l = dropTrailingWs l := by
    show dropTrailingWs (l.dropWhile isJsWs) = dropTrailingWs l
    rw [dropWhile_ws_of_noWsHead _ hh]
  rw [← h2, h]

theorem canon_noWsHead {p : String} (hc : CanonStr p) : noWsHead p.data = true :=
  noWsHead_of_trim_fix _ hc.2

theorem isJsWs_comma : isJsWs ',' = false := by decide

theorem joinComma_canon (parts : List String)
    (h : ∀ p ∈ parts, p ≠ "" ∧ CanonStr p) :
    CanonStr (joinComma parts) ∧ (parts ≠ [] → joinComma parts ≠ "") := by
  induction parts with
  | nil => exact ⟨⟨rfl, rfl⟩, fun hne => absurd rfl hne⟩
  | cons p rest ih =>
    obtain ⟨hp, hpc⟩ := h p (by simp)
    have ihr := ih (fun q hq => h q (by simp [hq]))
    by_cases hrne : rest = []
    · subst hrne
      exact ⟨by simpa [joinComma] using hpc, fun _ => by simpa [joinComma] using hp⟩
    · have hjr : joinComma rest ≠ "" := ihr.2 hrne
      have hjc : CanonStr (joinComma rest) := ihr.1
      have hje : joinComma (p :: rest) = p ++ "," ++ joinComma rest := by
        simp [joinComma, isEmpty_false_of_ne_nil _ hrne]
      have hdata : (joinComma (p :: rest)).data =
          p.data ++ ',' :: (joinComma rest).data := by
        rw [hje, string_data_append, string_data_append]
        simp
      have hpd : p.data ≠ [] := data_ne_of_str_ne _ hp
      have hspace : spacedB (joinComma (p :: rest)).data = true := by
        rw [hdata]
        refine spaced_append _ _ hpc.1 ?_ ?_
        · simp only [spacedB, Bool.and_eq_true]
          exact ⟨by simp [isJsWs_comma], hjc.1⟩
        · show (!isJsWs ',') = true
          decide
      have htail : dropTrailingWs (',' :: (joinComma rest).data) =
          ',' :: (joinComma rest).data := by
        simp only [dropTrailingWs]
        rw [if_neg (by simp [isJsWs_comma]), dtw_of_trim_fix _ hjc.2]
      have htrim : trimWs (joinComma (p :: rest)).data = (joinComma (p :: rest)).data := by
        rw [hdata]
        show dropTrailingWs ((p.data ++ ',' :: (joinComma rest).data).dropWhile isJsWs) =
          p.data ++ ',' :: (joinComma rest).data
        rw [dropWhile_ws_of_noWsHead]
        · exact dtw_append _ _ (by simp) htail
        · rw [noWsHead_append_left _ _ hpd]
          exact canon_noWsHead hpc
      refine ⟨⟨hspace, htrim⟩, fun _ => ?_⟩
      refine str_ne_empty_of_data _ ?_
      rw [hdata]
      simp [hpd]

/-! Canonicity of every `normalizeMatchValue` output. -/

theorem nmvAux_canon : ∀ fuel v, CanonStr (nmvAux fuel v) := by
  intro fuel
  induction fuel with
  | zero => intro v; exact ⟨rfl, rfl⟩
  | succ fuel ih =>
    intro v
    have hparts : ∀ (xs : List JsValue),
        ∀ p ∈ (xs.map (nmvAux fuel)).filter (fun s => s != ""), p ≠ "" ∧ CanonStr p := by
      intro xs p hp
      rw [List.mem_filter] at hp
      obtain ⟨hpm, hpne⟩ := hp
      refine ⟨by simpa using hpne, ?_⟩
      rw [List.mem_map] at hpm
      obtain ⟨x, _, hx⟩ := hpm
      rw [← hx]
      exact ih x
    cases v with
    | nullv => exact ⟨rfl, rfl⟩
    | str s => exact canon_nw s
    | num n => exact canon_intToString n
    | bool b =>
      cases b with
      | true =>
        show CanonStr "true"
        exact ⟨by decide, by decide⟩
      | false =>
        show CanonStr "false"
        exact ⟨by decide, by decide⟩
    | arr xs => exact (joinComma_canon _ (hparts xs)).1
    | obj text textArr nm disp val =>
      cases text with
      | some t => exact canon_nw t
      | none =>
        cases textArr with
        | some ts => exact (joinComma_canon _ (hparts ts)).1
        | none =>
          cases nm with
          | some t => exact canon_nw t
          | none =>
            cases disp with
            | some t => exact canon_nw t
            | none =>
              cases val with
              | some t => exact canon_nw t
              | none => exact canon_nw _
    | other s => exact canon_nw s

theorem normalizeMatchValue_canon (v : JsValue) (d : Nat) :
    CanonStr (normalizeMatchValue v d) := nmvAux_canon _ _

/-- C2: `normalizeMatchValue` is idempotent for every value shape: feeding
its output back in (as a string value) returns it unchanged.
`normalizeFolderName`, however, strips only ONE trailing copy suffix per
application, so it is idempotent exactly on those folder names whose
normalized form is unchanged by another suffix strip; stated here with that
hypothesis made explicit (see the counterexample for why it is needed). -/
theorem normalizeMatchValue_idem :
    (∀ x : JsValue, normalizeMatchValue (JsValue.str (normalizeMatchValue x 0)) 0 =
      normalizeMatchValue x 0) ∧
    (∀ f : String, stripFuben (stripCopyNum (normalizeFolderName f)) = normalizeFolderName f →
      normalizeFolderName (normalizeFolderName f) = normalizeFolderName f) := by
  constructor
  · intro x
    show normalizeWhitespace (normalizeMatchValue x 0) = normalizeMatchValue x 0
    exact canon_fix (normalizeMatchValue_canon x 0)
  · intro f h
    have hg : CanonStr (normalizeFolderName f) :=
      canon_nw (stripFuben (stripCopyNum (normalizeWhitespace f)))
    have h1 : normalizeWhitespace (normalizeFolderName f) = normalizeFolderName f :=
      canon_fix hg
    show normalizeWhitespace
        (stripFuben (stripCopyNum (normalizeWhitespace (normalizeFolderName f)))) =
      normalizeFolderName f
    rw [h1, h]
    exact h1

/-- C2 counterexample: the claim's second half is false as stated —
`normalizeFolderName` is not idempotent on every folder name, because each
application strips only one trailing copy suffix: "A (1) (2)" normalizes to
"A (1)", which normalizes further to "A". -/
theorem normalizeFolderName_not_idem :
    normalizeFolderName (normalizeFolderName "A (1) (2)") ≠
      normalizeFolderName "A (1) (2)" := by decide

/-- C2 witness: a concrete folder name satisfying the amended hypothesis. -/
theorem normalizeMatchValue_idem_witness :
    stripFuben (stripCopyNum (normalizeFolderName "Alice (2)")) =
        normalizeFolderName "Alice (2)" ∧
      normalizeFolderName (normalizeFolderName "Alice (2)") =
        normalizeFolderName "Alice (2)" :=
  ⟨by decide, normalizeMatchValue_idem.2 "Alice (2)" (by decide)⟩

/-! Lemmas about folder grouping. -/

theorem lookup_addToGroup_same (g : List (String × List RawFile)) (k : String) (f : RawFile) :
    lookupGroup (addToGroup g k f) k = some (membersOf g k ++ [f]) := by
  induction g with
  | nil => simp [addToGroup, lookupGroup, membersOf]
  | cons e rest ih =>
    obtain ⟨k0, fs⟩ := e
    by_cases hk : k0 = k
    · subst hk
      simp [addToGroup, lookupGroup, membersOf]
    · simp [addToGroup, lookupGroup, hk, ih, membersOf]

theorem lookup_addToGroup_ne (g : List (String × List RawFile)) (k0 k : String)
    (f : RawFile) (h : k0 ≠ k) :
    lookupGroup (addToGroup g k0 f) k = lookupGroup g k := by
  induction g with
  | nil => simp [addToGroup, lookupGroup, h]
  | cons e rest ih =>
    obtain ⟨k1, fs⟩ := e
    by_cases hk : k1 = k0
    · subst hk
      simp [addToGroup, lookupGroup, h]
    · simp [addToGroup, lookupGroup, hk, ih]

theorem mem_members_groupStep (root : String) (g : List (String × List RawFile))
    (x f : RawFile) (k : String) (h : f ∈ membersOf g k) :
    f ∈ membersOf (groupStep root g x) k := by
  unfold groupStep
  cases hf : fileFolder root x with
  | none => exact h
  | some k0 =>
    by_cases hk : k0 = k
    · subst hk
      unfold membersOf
      rw [lookup_addToGroup_same]
      exact List.mem_append_left _ h
    · unfold membersOf
      rw [lookup_addToGroup_ne _ _ _ _ hk]
      exact h

theorem mem_members_foldl (root : String) :
    ∀ (l : List RawFile) (g : List (String × List RawFile)) (f : RawFile) (k : String),
      (f ∈ membersOf g k ∨ (f ∈ l ∧ fileFolder root f = some k)) →
      f ∈ membersOf (l.foldl (groupStep root) g) k := by
  intro l
  induction l with
  | nil =>
    intro g f k h
    rcases h with h | ⟨hm, _⟩
    · exact h
    · cases hm
  | cons x xs ih =>
    intro g f k h
    simp only [List.foldl_cons]
    apply ih
    rcases h with h | ⟨hm, hk⟩
    · exact Or.inl (mem_members_groupStep root g x f k h)
    · rcases List.mem_cons.mp hm with heq | hm2
      · subst heq
        left
        unfold groupStep
        rw [hk]
        unfold membersOf
        rw [lookup_addToGroup_same]
        exact List.mem_append_right _ (by simp)
      · exact Or.inr ⟨hm2, hk⟩

theorem mem_group_result (files : List RawFile) (f : RawFile) (k : String)
    (hmem : f ∈ files) (hk : fileFolder (rootOf files) f = some k) :
    f ∈ membersOf (groupFilesByFolder files) k := by
  unfold groupFilesByFolder
  rw [if_neg (by simp [isEmpty_false_of_ne_nil _ (List.ne_nil_of_mem hmem)])]
  exact mem_members_foldl _ files [] f k (Or.inr ⟨hmem, hk⟩)

/-- Entry-wise grouping invariant: every file stored under a key was
assigned that key by `fileFolder`. -/
def GroupInvE (root : String) (g : List (String × List RawFile)) : Prop :=
  ∀ e ∈ g, ∀ f ∈ e.2, fileFolder root f = some e.1

theorem groupInvE_addToGroup (root : String) (g : List (String × List RawFile))
    (k0 : String) (x : RawFile) (hg : GroupInvE root g)
    (hx : fileFolder root x = some k0) : GroupInvE root (addToGroup g k0 x) := by
  induction g with
  | nil =>
    intro e he f hf
    simp only [addToGroup, List.mem_singleton] at he
    subst he
    simp only [List.mem_singleton] at hf
    subst hf
    exact hx
  | cons e1 rest ih =>
    obtain ⟨k1, fs1⟩ := e1
    by_cases hk : k1 = k0
    · subst hk
      intro e he f hf
      rw [show addToGroup ((k1, fs1) :: rest) k1 x = (k1, fs1 ++ [x]) :: rest from by
        simp [addToGroup]] at he
      rcases List.mem_cons.mp he with he2 | he2
      · subst he2
        rcases List.mem_append.mp hf with hf2 | hf2
        · exact hg (k1, fs1) (by simp) f hf2
        · have hfx : f = x := by simpa using hf2
          subst hfx
          exact hx
      · exact hg e (by simp [he2]) f hf
    · intro e he f hf
      rw [show addToGroup ((k1, fs1) :: rest) k0 x = (k1, fs1) :: addToGroup rest k0 x from by
        simp [addToGroup, hk]] at he
      rcases List.mem_cons.mp he with he2 | he2
      · subst he2
        exact hg (k1, fs1) (by simp) f hf
      · exact ih (fun e2 he3 f2 hf2 => hg e2 (by simp [he3]) f2 hf2) e he2 f hf

theorem groupInvE_foldl (root : String) :
    ∀ (l : List RawFile) (g : List (String × List RawFile)),
      GroupInvE root g → GroupInvE root (l.foldl (groupStep root) g) := by
  intro l
  induction l with
  | nil => intro g hg; exact hg
  | cons x xs ih =>
    intro g hg
    simp only [List.foldl_cons]
    apply ih
    unfold groupStep
    cases hf : fileFolder root x with
    | none => exact hg
    | some k0 => exact groupInvE_addToGroup root g k0 x hg hf

theorem lookup_mem (g : List (String × List RawFile)) (k : String) (fs : List RawFile)
    (h : lookupGroup g k = some fs) : (k, fs) ∈ g := by
  induction g with
  | nil => cases h
  | cons e rest ih =>
    obtain ⟨k1, fs1⟩ := e
    by_cases hk : k1 = k
    · subst hk
      have hfs : fs1 = fs := by simpa [lookupGroup] using h
      subst hfs
      simp
    · rw [show lookupGroup ((k1, fs1) :: rest) k = lookupGroup rest k from by
        simp [lookupGroup, hk]] at h
      exact List.mem_cons_of_mem _ (ih h)

theorem group_sound (files : List RawFile) (k : String) (fs : List RawFile)
    (h : lookupGroup (groupFilesByFolder files) k = some fs) :
    ∀ f ∈ fs, fileFolder (rootOf files) f = some k := by
  intro f hf
  unfold groupFilesByFolder at h
  split at h
  · cases h
  · have hinv : GroupInvE (rootOf files) (files.foldl (groupStep (rootOf files)) []) :=
      groupInvE_foldl _ files [] (fun e he => by cases he)
    exact hinv (k, fs) (lookup_mem _ _ _ h) f hf

theorem parent_of_depth2 (root : String) (f : RawFile) (k b : String)
    (h : strippedParts root f = [k, b]) : immediateParent f = some k := by
  unfold immediateParent
  cases hp : pathParts f with
  | nil => simp [strippedParts, hp] at h
  | cons p0 rest =>
    simp only [strippedParts, hp] at h
    by_cases hr : p0 = root
    · rw [if_pos hr] at h
      rw [h]
      rfl
    · rw [if_neg hr] at h
      injection h with h1 h2
      subst h1
      subst h2
      rfl

/-- C1 counterexample: for input files `A/X/1.png` and `B/Y/2.png` the code
produces groups keyed "X" and "B" (the later file is grouped by its own
FIRST segment), not "X" and "Y" as the claim's concrete part states: there
is no group "Y" at all. -/
theorem grouping_hetero_counterexample :
    (groupFilesByFolder [⟨"1.png", "A/X/1.png"⟩, ⟨"2.png", "B/Y/2.png"⟩]).map Prod.fst =
        ["X", "B"] ∧
      lookupGroup (groupFilesByFolder [⟨"1.png", "A/X/1.png"⟩, ⟨"2.png", "B/Y/2.png"⟩])
        "Y" = none :=
  ⟨by decide, by decide⟩

/-- C1 (amended): for the two-file input `A/X/1.png`, `B/Y/2.png` the
grouping function returns exactly two groups, keyed "X" and "B" — the
later file whose first path segment differs from the inferred root is
grouped by its own first segment (here "B", not its second segment "Y");
in general any file whose first segment differs from the inferred root and
which has at least two segments lands in the group named by its own first
segment. -/
theorem grouping_hetero_roots :
    (groupFilesByFolder [⟨"1.png", "A/X/1.png"⟩, ⟨"2.png", "B/Y/2.png"⟩] =
      [("X", [⟨"1.png", "A/X/1.png"⟩]), ("B", [⟨"2.png", "B/Y/2.png"⟩])]) ∧
    (∀ (files : List RawFile) (f : RawFile) (k : String) (rest : List String),
      f ∈ files → pathParts f = k :: rest → k ≠ rootOf files → rest ≠ [] →
      f ∈ membersOf (groupFilesByFolder files) k) := by
  constructor
  · decide
  · intro files f k rest hmem hparts hne hrest
    apply mem_group_result files f k hmem
    have hs : strippedParts (rootOf files) f = k :: rest := by
      simp only [strippedParts, hparts]
      rw [if_neg hne]
    unfold fileFolder
    rw [hs]
    cases rest with
    | nil => exact absurd rfl hrest
    | cons b rest2 => rfl

/-- C1 witness: the general clause applied to the heterogeneous two-file
input, all hypotheses discharged concretely. -/
theorem grouping_hetero_roots_witness :
    ((⟨"2.png", "B/Y/2.png"⟩ : RawFile) ∈
        [(⟨"1.png", "A/X/1.png"⟩ : RawFile), ⟨"2.png", "B/Y/2.png"⟩] ∧
      pathParts ⟨"2.png", "B/Y/2.png"⟩ = "B" :: ["Y", "2.png"] ∧
      "B" ≠ rootOf [⟨"1.png", "A/X/1.png"⟩, ⟨"2.png", "B/Y/2.png"⟩]) ∧
    (⟨"2.png", "B/Y/2.png"⟩ : RawFile) ∈
      membersOf (groupFilesByFolder [⟨"1.png", "A/X/1.png"⟩, ⟨"2.png", "B/Y/2.png"⟩]) "B" :=
  ⟨⟨by decide, by decide, by decide⟩,
    grouping_hetero_roots.2 [⟨"1.png", "A/X/1.png"⟩, ⟨"2.png", "B/Y/2.png"⟩]
      ⟨"2.png", "B/Y/2.png"⟩ "B" ["Y", "2.png"] (by decide) (by decide) (by decide)
      (by decide)⟩

/-- C3 counterexample: the single file `root/X/sub/1.png` is placed in
group "X" (its first root-stripped segment), but its immediate parent
folder — the last directory segment of its relative path — is "sub", not
"X": group membership is keyed by the TOP-level sub-folder, not by the
immediate parent. -/
theorem group_parent_counterexample :
    membersOf (groupFilesByFolder [⟨"1.png", "root/X/sub/1.png"⟩]) "X" =
        [⟨"1.png", "root/X/sub/1.png"⟩] ∧
      immediateParent ⟨"1.png", "root/X/sub/1.png"⟩ = some "sub" ∧
      ("sub" : String) ≠ "X" :=
  ⟨by decide, by decide, by decide⟩

/-- C3 (amended): every file placed in a folder group has that group's key
as the FIRST segment of its root-stripped path (the top-level sub-folder it
sits under); this coincides with the immediate parent folder name exactly
when the file sits directly in that sub-folder (two segments after
root-stripping).  Files that are too shallow are excluded (they are
assigned no group key at all). -/
theorem group_key_invariant :
    (∀ (files : List RawFile) (k : String) (fs : List RawFile),
      lookupGroup (groupFilesByFolder files) k = some fs →
      ∀ f ∈ fs, fileFolder (rootOf files) f = some k) ∧
    (∀ (root : String) (f : RawFile) (k b : String),
      strippedParts root f = [k, b] → immediateParent f = some k) :=
  ⟨group_sound, parent_of_depth2⟩

/-- C3 witness: the invariant applied to a concrete one-file input, and the
depth-2 parent coincidence at a concrete path. -/
theorem group_key_invariant_witness :
    (lookupGroup (groupFilesByFolder [⟨"1.png", "root/X/1.png"⟩]) "X" =
        some [⟨"1.png", "root/X/1.png"⟩] ∧
      fileFolder (rootOf [⟨"1.png", "root/X/1.png"⟩]) ⟨"1.png", "root/X/1.png"⟩ =
        some "X") ∧
    (strippedParts "root" ⟨"1.png", "root/X/1.png"⟩ = ["X", "1.png"] ∧
      immediateParent ⟨"1.png", "root/X/1.png"⟩ = some "X") :=
  ⟨⟨by decide,
      group_key_invariant.1 [⟨"1.png", "root/X/1.png"⟩] "X" [⟨"1.png", "root/X/1.png"⟩]
        (by decide) ⟨"1.png", "root/X/1.png"⟩ (by decide)⟩,
    ⟨by decide,
      group_key_invariant.2 "root" ⟨"1.png", "root/X/1.png"⟩ "X" "1.png" (by decide)⟩⟩

/-! Lemmas about the ordering pass. -/

theorem insertSorted_perm {α : Type} (le : α → α → Bool) (a : α) (l : List α) :
    List.Perm (insertSorted le a l) (a :: l) := by
  induction l with
  | nil => exact List.Perm.refl _
  | cons b bs ih =>
    unfold insertSorted
    split
    · exact List.Perm.refl _
    · exact (ih.cons b).trans (List.Perm.swap a b bs)

theorem sortLe_perm {α : Type} (le : α → α → Bool) (l : List α) :
    List.Perm (sortLe le l) l := by
  induction l with
  | nil => exact List.Perm.refl _
  | cons a rest ih =>
    exact (insertSorted_perm le a (sortLe le rest)).trans (ih.cons a)

theorem classifyFiles_cons (kw : String) (f : RawFile) (fs : List RawFile) :
    classifyFiles kw (f :: fs) =
      (match classifyFile kw f with
       | .cover => (f :: (classifyFiles kw fs).1, (classifyFiles kw fs).2.1,
           (classifyFiles kw fs).2.2)
       | .numbered v => ((classifyFiles kw fs).1, (v, f) :: (classifyFiles kw fs).2.1,
           (classifyFiles kw fs).2.2)
       | .other => ((classifyFiles kw fs).1, (classifyFiles kw fs).2.1,
           f :: (classifyFiles kw fs).2.2)) := rfl

theorem classifyFiles_cons_cover {kw : String} {f : RawFile} (fs : List RawFile)
    (h : classifyFile kw f = .cover) :
    classifyFiles kw (f :: fs) = (f :: (classifyFiles kw fs).1,
      (classifyFiles kw fs).2.1, (classifyFiles kw fs).2.2) := by
  rw [classifyFiles_cons, h]

theorem classifyFiles_cons_num {kw : String} {f : RawFile} {v : Nat} (fs : List RawFile)
    (h : classifyFile kw f = .numbered v) :
    classifyFiles kw (f :: fs) = ((classifyFiles kw fs).1,
      (v, f) :: (classifyFiles kw fs).2.1, (classifyFiles kw fs).2.2) := by
  rw [classifyFiles_cons, h]

theorem classifyFiles_cons_other {kw : String} {f : RawFile} (fs : List RawFile)
    (h : classifyFile kw f = .other) :
    classifyFiles kw (f :: fs) = ((classifyFiles kw fs).1,
      (classifyFiles kw fs).2.1, f :: (classifyFiles kw fs).2.2) := by
  rw [classifyFiles_cons, h]

theorem classify_partition (kw : String) (files : List RawFile) :
    List.Perm ((classifyFiles kw files).1 ++
      ((classifyFiles kw files).2.1).map Prod.snd ++ (classifyFiles kw files).2.2)
      files := by
  induction files with
  | nil => exact List.Perm.refl _
  | cons f fs ih =>
    cases hc : classifyFile kw f with
    | cover =>
      rw [classifyFiles_cons_cover fs hc]
      exact ih.cons f
    | numbered v =>
      rw [classifyFiles_cons_num fs hc]
      exact (List.Perm.append_right _ List.perm_middle).trans (ih.cons f)
    | other =>
      rw [classifyFiles_cons_other fs hc]
      exact List.perm_middle.trans (ih.cons f)

/-- C10: the ordering function returns a permutation of its input — every
file lands in exactly one bucket, the buckets are sorted (a permutation)
and concatenated, so each input file appears exactly once in the output
and nothing else appears. -/
theorem order_permutation (lc : String → String → Bool) (files : List RawFile)
    (kw : String) : List.Perm (orderFiles lc files kw) files :=
  List.Perm.trans
    (List.Perm.append
      (List.Perm.append (sortLe_perm _ _) ((sortLe_perm _ _).map Prod.snd))
      (sortLe_perm _ _))
    (classify_partition kw files)

theorem classify_mem_cover (kw : String) :
    ∀ (files : List RawFile) (f : RawFile), f ∈ (classifyFiles kw files).1 →
      classifyFile kw f = .cover := by
  intro files
  induction files with
  | nil => intro f hf; cases hf
  | cons x fs ih =>
    intro f hf
    cases hc : classifyFile kw x with
    | cover =>
      rw [classifyFiles_cons_cover fs hc] at hf
      rcases List.mem_cons.mp hf with heq | hf2
      · subst heq; exact hc
      · exact ih f hf2
    | numbered v =>
      rw [classifyFiles_cons_num fs hc] at hf
      exact ih f hf
    | other =>
      rw [classifyFiles_cons_other fs hc] at hf
      exact ih f hf

theorem classify_mem_num (kw : String) :
    ∀ (files : List RawFile) (p : Nat × RawFile), p ∈ (classifyFiles kw files).2.1 →
      classifyFile kw p.2 = .numbered p.1 := by
  intro files
  induction files with
  | nil => intro p hp; cases hp
  | cons x fs ih =>
    intro p hp
    cases hc : classifyFile kw x with
    | cover =>
      rw [classifyFiles_cons_cover fs hc] at hp
      exact ih p hp
    | numbered v =>
      rw [classifyFiles_cons_num fs hc] at hp
      rcases List.mem_cons.mp hp with heq | hp2
      · subst heq; exact hc
      · exact ih p hp2
    | other =>
      rw [classifyFiles_cons_other fs hc] at hp
      exact ih p hp

theorem classify_mem_other (kw : String) :
    ∀ (files : List RawFile) (f : RawFile), f ∈ (classifyFiles kw files).2.2 →
      classifyFile kw f = .other := by
  intro files
  induction files with
  | nil => intro f hf; cases hf
  | cons x fs ih =>
    intro f hf
    cases hc : classifyFile kw x with
    | cover =>
      rw [classifyFiles_cons_cover fs hc] at hf
      exact ih f hf
    | numbered v =>
      rw [classifyFiles_cons_num fs hc] at hf
      exact ih f hf
    | other =>
      rw [classifyFiles_cons_other fs hc] at hf
      rcases List.mem_cons.mp hf with heq | hf2
      · subst heq; exact hc
      · exact ih f hf2

theorem numLe_true_le (lc : String → String → Bool) (a b : Nat × RawFile)
    (h : numLe lc a b = true) : a.1 ≤ b.1 := by
  unfold numLe at h
  rcases Bool.or_eq_true_iff.mp h with h1 | h2
  · have hlt : a.1 < b.1 := by rw [← Nat.blt_eq]; exact h1
    exact Nat.le_of_lt hlt
  · have hbeq := (Bool.and_eq_true_iff.mp h2).1
    exact Nat.le_of_eq (Nat.eq_of_beq_eq_true hbeq)

theorem numLe_false_le (lc : String → String → Bool) (a b : Nat × RawFile)
    (h : numLe lc a b = false) : b.1 ≤ a.1 := by
  unfold numLe at h
  rcases Bool.or_eq_false_iff.mp h with ⟨h1, _⟩
  have hnlt : ¬ a.1 < b.1 := by rw [← Nat.blt_eq]; simp [h1]
  omega

theorem insertSorted_pairwise_num (lc : String → String → Bool) (x : Nat × RawFile)
    (l : List (Nat × RawFile)) (hl : l.Pairwise (fun a b => a.1 ≤ b.1)) :
    (insertSorted (numLe lc) x l).Pairwise (fun a b => a.1 ≤ b.1) := by
  induction l with
  | nil => simp [insertSorted]
  | cons b bs ih =>
    rw [List.pairwise_cons] at hl
    obtain ⟨hb, hbs⟩ := hl
    unfold insertSorted
    split
    · rename_i hle
      rw [List.pairwise_cons]
      constructor
      · intro c hc
        rcases List.mem_cons.mp hc with heq | hc2
        · subst heq; exact numLe_true_le lc x c hle
        · exact Nat.le_trans (numLe_true_le lc x b hle) (hb c hc2)
      · exact List.Pairwise.cons hb hbs
    · rename_i hle
      have hle2 : numLe lc x b = false := by
        cases hxb : numLe lc x b with
        | true => exact absurd hxb hle
        | false => rfl
      rw [List.pairwise_cons]
      constructor
      · intro c hc
        have hmem := (insertSorted_perm (numLe lc) x bs).mem_iff.mp hc
        rcases List.mem_cons.mp hmem with heq | hc2
        · subst heq; exact numLe_false_le lc c b hle2
        · exact hb c hc2
      · exact ih hbs

theorem sortLe_pairwise_num (lc : String → String → Bool) (l : List (Nat × RawFile)) :
    (sortLe (numLe lc) l).Pairwise (fun a b => a.1 ≤ b.1) := by
  induction l with
  | nil => simp [sortLe]
  | cons a rest ih => exact insertSorted_pairwise_num lc a _ ih

/-- C5: the ordering function returns the cover bucket, then the numbered
bucket sorted by extracted integer ascending, then the other bucket, in
that fixed tier order; the concrete four-file example with keyword "封面"
comes out as claimed, for every collation. -/
theorem order_tier_sequence :
    (∀ lc, orderFiles lc
        [⟨"02.png", ""⟩, ⟨"封面.png", ""⟩, ⟨"01.png", ""⟩, ⟨"note.png", ""⟩] "封面" =
      [⟨"封面.png", ""⟩, ⟨"01.png", ""⟩, ⟨"02.png", ""⟩, ⟨"note.png", ""⟩]) ∧
    (∀ (lc : String → String → Bool) (files : List RawFile) (kw : String),
      ∃ (A : List RawFile) (B : List (Nat × RawFile)) (C : List RawFile),
        orderFiles lc files kw = A ++ B.map Prod.snd ++ C ∧
        (∀ f ∈ A, classifyFile kw f = .cover) ∧
        (∀ p ∈ B, classifyFile kw p.2 = .numbered p.1) ∧
        B.Pairwise (fun a b => a.1 ≤ b.1) ∧
        (∀ f ∈ C, classifyFile kw f = .other)) := by
  constructor
  · intro lc; rfl
  · intro lc files kw
    refine ⟨sortLe (nameLe lc) (classifyFiles kw files).1,
      sortLe (numLe lc) (classifyFiles kw files).2.1,
      sortLe (nameLe lc) (classifyFiles kw files).2.2, rfl, ?_, ?_, ?_, ?_⟩
    · intro f hf
      exact classify_mem_cover kw files f ((sortLe_perm _ _).mem_iff.mp hf)
    · intro p hp
      exact classify_mem_num kw files p ((sortLe_perm _ _).mem_iff.mp hp)
    · exact sortLe_pairwise_num lc _
    · intro f hf
      exact classify_mem_other kw files f ((sortLe_perm _ _).mem_iff.mp hf)

/-- C5 witness: the concrete ordering instantiated at a concrete collation. -/
theorem order_tier_sequence_witness :
    orderFiles (fun _ _ => true)
        [⟨"02.png", ""⟩, ⟨"封面.png", ""⟩, ⟨"01.png", ""⟩, ⟨"note.png", ""⟩] "封面" =
      [⟨"封面.png", ""⟩, ⟨"01.png", ""⟩, ⟨"02.png", ""⟩, ⟨"note.png", ""⟩] :=
  order_tier_sequence.1 (fun _ _ => true)

/-- C6: a non-cover file whose base name (final extension removed) contains
at least one maximal digit run is bucketed by the integer parsed from the
LAST such run; concretely, "img_v2_010.png" is bucketed by 10 (not 2), so
it orders after "3.png". -/
theorem order_last_digit_run :
    (∀ (kw : String) (f : RawFile) (r : List Char),
      (kw = "" ∨ containsSub f.name kw = false) →
      (digitRuns (baseName f.name).data).getLast? = some r →
      classifyFile kw f = .numbered (digitsToNat r)) ∧
    (classifyFile "封面" ⟨"img_v2_010.png", ""⟩ = .numbered 10 ∧
      digitRuns (baseName "img_v2_010.png").data = [['2'], ['0', '1', '0']]) ∧
    (∀ lc, orderFiles lc [⟨"img_v2_010.png", ""⟩, ⟨"3.png", ""⟩] "封面" =
      [⟨"3.png", ""⟩, ⟨"img_v2_010.png", ""⟩]) := by
  refine ⟨?_, ⟨by decide, by decide⟩, fun lc => rfl⟩
  intro kw f r hnc hr
  unfold classifyFile
  have hguard : (kw != "" && containsSub f.name kw) = false := by
    rcases hnc with h | h
    · subst h; rfl
    · simp [h]
  rw [hguard]
  have hval : lastDigitVal f.name = some (digitsToNat r) := by
    unfold lastDigitVal
    rw [hr]
  simp only [Bool.false_eq_true, if_false, hval]

/-- C6 witness: the general clause with all hypotheses discharged at
"img_v2_010.png" and keyword "封面". -/
theorem order_last_digit_run_witness :
    (("封面" : String) = "" ∨ containsSub "img_v2_010.png" "封面" = false) ∧
    (digitRuns (baseName "img_v2_010.png").data).getLast? = some ['0', '1', '0'] ∧
    classifyFile "封面" ⟨"img_v2_010.png", ""⟩ = .numbered (digitsToNat ['0', '1', '0']) :=
  ⟨Or.inr (by decide), by decide,
    order_last_digit_run.1 "封面" ⟨"img_v2_010.png", ""⟩ ['0', '1', '0']
      (Or.inr (by decide)) (by decide)⟩

/-! Lemmas about the reconciliation loop. -/

theorem outcome_count_sum (os : List Outcome) :
    os.countP isMatchedO + os.countP isFailedO + os.countP isSkippedO = os.length := by
  induction os with
  | nil => rfl
  | cons o rest ih =>
    cases o <;> simp [List.countP_cons, isMatchedO, isFailedO, isSkippedO] <;> omega

theorem runUpload_eq (records : List (String × JsValue)) (g : String × List RawFile)
    (rest : List (String × List RawFile))
    (write : String → List RawFile → Except String Unit) (lc : String → String → Bool)
    (maxImages : Int) (kw : String) :
    runUpload records (g :: rest) write lc maxImages kw =
      some ⟨((g :: rest).map (processGroup (buildMatchMap records) write lc
          (effectiveLimit maxImages) kw)).countP isMatchedO,
        ((g :: rest).map (processGroup (buildMatchMap records) write lc
          (effectiveLimit maxImages) kw)).countP isFailedO,
        ((g :: rest).map (processGroup (buildMatchMap records) write lc
          (effectiveLimit maxImages) kw)).countP isSkippedO,
        (g :: rest).map (processGroup (buildMatchMap records) write lc
          (effectiveLimit maxImages) kw)⟩ := rfl

/-- C4: in every run that reaches the per-group loop, each group produces
exactly one outcome, so success + failed + skipped equals the number of
groups; concretely, with record map from {"Alice": r1} and groups Alice and
Carol, the Alice group is matched and written and the Carol group is
skipped. -/
theorem run_outcome_partition :
    (∀ (records : List (String × JsValue)) (groups : List (String × List RawFile))
      (write : String → List RawFile → Except String Unit)
      (lc : String → String → Bool) (maxImages : Int) (kw : String) (res : RunResult),
      runUpload records groups write lc maxImages kw = some res →
      res.success + res.failed + res.skipped = groups.length) ∧
    (runUpload [("r1", JsValue.str "Alice")]
        [("Alice", [⟨"1.png", ""⟩]), ("Carol", [⟨"2.png", ""⟩])]
        (fun _ _ => Except.ok ()) (fun _ _ => true) 10 "封面" =
      some ⟨1, 0, 1, [Outcome.matched "r1" [⟨"1.png", ""⟩], Outcome.skippedNoMatch]⟩) := by
  constructor
  · intro records groups write lc maxImages kw res hrun
    cases groups with
    | nil => cases hrun
    | cons g rest =>
      rw [runUpload_eq] at hrun
      injection hrun with h
      rw [← h]
      dsimp only
      rw [outcome_count_sum, List.length_map]
  · decide

/-- C4 witness: the counter partition applied to the concrete two-group
run. -/
theorem run_outcome_partition_witness :
    runUpload [("r1", JsValue.str "Alice")]
        [("Alice", [⟨"1.png", ""⟩]), ("Carol", [⟨"2.png", ""⟩])]
        (fun _ _ => Except.ok ()) (fun _ _ => true) 10 "封面" =
      some ⟨1, 0, 1, [Outcome.matched "r1" [⟨"1.png", ""⟩], Outcome.skippedNoMatch]⟩ ∧
    (⟨1, 0, 1, [Outcome.matched "r1" [⟨"1.png", ""⟩], Outcome.skippedNoMatch]⟩ :
        RunResult).success +
      (⟨1, 0, 1, [Outcome.matched "r1" [⟨"1.png", ""⟩], Outcome.skippedNoMatch]⟩ :
        RunResult).failed +
      (⟨1, 0, 1, [Outcome.matched "r1" [⟨"1.png", ""⟩], Outcome.skippedNoMatch]⟩ :
        RunResult).skipped =
      ([("Alice", [(⟨"1.png", ""⟩ : RawFile)]), ("Carol", [⟨"2.png", ""⟩])]).length :=
  ⟨by decide,
    run_outcome_partition.1 [("r1", JsValue.str "Alice")]
      [("Alice", [⟨"1.png", ""⟩]), ("Carol", [⟨"2.png", ""⟩])]
      (fun _ _ => Except.ok ()) (fun _ _ => true) 10 "封面"
      ⟨1, 0, 1, [Outcome.matched "r1" [⟨"1.png", ""⟩], Outcome.skippedNoMatch]⟩
      (by decide)⟩

/-- C7: the effective cap is `max 1 maxImages`, never below 1, and a
matched group hands the write exactly the first `cap` elements of the
ordered sequence; with 5 numbered files and cap 3 the 3 lowest-numbered are
kept, and a cover file always comes first regardless of the cap. -/
theorem upload_cap_truncation :
    (∀ maxImages : Int, 1 ≤ effectiveLimit maxImages) ∧
    (∀ (matchMap : List (String × String))
      (write : String → List RawFile → Except String Unit)
      (lc : String → String → Bool) (maxImages : Int) (kw folder : String)
      (files : List RawFile) (rid : String) (l : List RawFile),
      processGroup matchMap write lc (effectiveLimit maxImages) kw (folder, files) =
        Outcome.matched rid l →
      l = (orderFiles lc files kw).take (effectiveLimit maxImages) ∧
      l.length = min (effectiveLimit maxImages) (orderFiles lc files kw).length) ∧
    (∀ lc, (orderFiles lc [⟨"05.png", ""⟩, ⟨"01.png", ""⟩, ⟨"04.png", ""⟩, ⟨"02.png", ""⟩,
        ⟨"03.png", ""⟩] "封面").take (effectiveLimit 3) =
      [⟨"01.png", ""⟩, ⟨"02.png", ""⟩, ⟨"03.png", ""⟩]) ∧
    (∀ lc, (orderFiles lc [⟨"05.png", ""⟩, ⟨"01.png", ""⟩, ⟨"04.png", ""⟩, ⟨"02.png", ""⟩,
        ⟨"03.png", ""⟩, ⟨"封面.png", ""⟩] "封面").take (effectiveLimit 3) =
      [⟨"封面.png", ""⟩, ⟨"01.png", ""⟩, ⟨"02.png", ""⟩]) := by
  refine ⟨?_, ?_, fun lc => rfl, fun lc => rfl⟩
  · intro mi
    unfold effectiveLimit
    have h := le_max_left (1 : Int) mi
    omega
  · intro mm write lc mi kw folder files rid l hp
    unfold processGroup at hp
    cases hm : mapGet mm (normalizeFolderName folder) with
    | none => rw [hm] at hp; cases hp
    | some rid2 =>
      rw [hm] at hp
      dsimp only at hp
      split at hp
      · cases hp
      · split at hp
        · rename_i u hw
          injection hp with h1 h2
          subst h2
          exact ⟨rfl, List.length_take _ _⟩
        · cases hp

/-- C7 witness: a concrete matched group, hypothesis discharged by
evaluation. -/
theorem upload_cap_truncation_witness :
    processGroup [("Alice", "r1")] (fun _ _ => Except.ok ()) (fun _ _ => true)
        (effectiveLimit 10) "封面" ("Alice", [⟨"1.png", ""⟩]) =
      Outcome.matched "r1" [⟨"1.png", ""⟩] ∧
    (([⟨"1.png", ""⟩] : List RawFile) =
        (orderFiles (fun _ _ => true) [⟨"1.png", ""⟩] "封面").take (effectiveLimit 10) ∧
      ([⟨"1.png", ""⟩] : List RawFile).length =
        min (effectiveLimit 10) (orderFiles (fun _ _ => true) [⟨"1.png", ""⟩] "封面").length) :=
  ⟨by decide,
    upload_cap_truncation.2.1 [("Alice", "r1")] (fun _ _ => Except.ok ())
      (fun _ _ => true) 10 "封面" "Alice" [⟨"1.png", ""⟩] "r1" [⟨"1.png", ""⟩] (by decide)⟩

/-- C8: a rejected write is caught and recorded as a per-group failure
carrying the underlying message (distinct from skips); the outcome list
always covers every group, and a failing group never prevents later groups
from being processed — concretely, a run whose first group's write rejects
still matches and writes the second group. -/
theorem write_failure_isolated :
    (∀ (matchMap : List (String × String))
      (write : String → List RawFile → Except String Unit)
      (lc : String → String → Bool) (limit : Nat) (kw folder : String)
      (files : List RawFile) (rid msg : String),
      processGroup matchMap write lc limit kw (folder, files) =
        Outcome.failedWrite rid msg →
      mapGet matchMap (normalizeFolderName folder) = some rid ∧
      write rid ((orderFiles lc files kw).take limit) = Except.error msg) ∧
    (∀ (records : List (String × JsValue)) (groups : List (String × List RawFile))
      (write : String → List RawFile → Except String Unit)
      (lc : String → String → Bool) (maxImages : Int) (kw : String) (res : RunResult),
      runUpload records groups write lc maxImages kw = some res →
      res.outcomes.length = groups.length ∧
      res.failed = res.outcomes.countP isFailedO) ∧
    (runUpload [("r1", JsValue.str "Alice"), ("r2", JsValue.str "Bob")]
        [("Alice", [⟨"1.png", ""⟩]), ("Bob", [⟨"2.png", ""⟩])]
        (fun rid _ => if rid = "r1" then Except.error "boom" else Except.ok ())
        (fun _ _ => true) 10 "封面" =
      some ⟨1, 1, 0, [Outcome.failedWrite "r1" "boom",
        Outcome.matched "r2" [⟨"2.png", ""⟩]]⟩) := by
  refine ⟨?_, ?_, by decide⟩
  · intro mm write lc limit kw folder files rid msg hp
    unfold processGroup at hp
    cases hm : mapGet mm (normalizeFolderName folder) with
    | none => rw [hm] at hp; cases hp
    | some rid2 =>
      rw [hm] at hp
      dsimp only at hp
      split at hp
      · cases hp
      · split at hp
        · cases hp
        · rename_i m hw
          injection hp with h1 h2
          subst h1
          subst h2
          exact ⟨rfl, hw⟩
  · intro records groups write lc maxImages kw res hrun
    cases groups with
    | nil => cases hrun
    | cons g rest =>
      rw [runUpload_eq] at hrun
      injection hrun with h
      rw [← h]
      dsimp only
      exact ⟨List.length_map _ _, rfl⟩

/-- C8 witness: the length/counter clause applied to a concrete one-group
run whose write rejects. -/
theorem write_failure_isolated_witness :
    runUpload [("r1", JsValue.str "Alice")] [("Alice", [⟨"1.png", ""⟩])]
        (fun _ _ => Except.error "x") (fun _ _ => true) 10 "封面" =
      some ⟨0, 1, 0, [Outcome.failedWrite "r1" "x"]⟩ ∧
    ((⟨0, 1, 0, [Outcome.failedWrite "r1" "x"]⟩ : RunResult).outcomes.length =
        ([("Alice", [(⟨"1.png", ""⟩ : RawFile)])]).length ∧
      (⟨0, 1, 0, [Outcome.failedWrite "r1" "x"]⟩ : RunResult).failed =
        (⟨0, 1, 0, [Outcome.failedWrite "r1" "x"]⟩ :
          RunResult).outcomes.countP isFailedO) :=
  ⟨by decide,
    write_failure_isolated.2.1 [("r1", JsValue.str "Alice")]
      [("Alice", [⟨"1.png", ""⟩])] (fun _ _ => Except.error "x") (fun _ _ => true)
      10 "封面" ⟨0, 1, 0, [Outcome.failedWrite "r1" "x"]⟩ (by decide)⟩

theorem mapGet_mapSet_ne (m : List (String × String)) (k0 k v : String) (h : k0 ≠ k) :
    mapGet (mapSet m k0 v) k = mapGet m k := by
  induction m with
  | nil => simp [mapSet, mapGet, h]
  | cons e rest ih =>
    obtain ⟨k1, v1⟩ := e
    by_cases hk : k1 = k0
    · subst hk
      simp [mapSet, mapGet, h]
    · simp [mapSet, mapGet, hk, ih]

theorem buildMatchMap_foldl_no_empty :
    ∀ (rs : List (String × JsValue)) (m : List (String × String)),
      mapGet m "" = none →
      mapGet (rs.foldl (fun m r =>
        let key := normalizeMatchValue r.2 0
        if key = "" then m else mapSet m key r.1) m) "" = none := by
  intro rs
  induction rs with
  | nil => intro m hm; exact hm
  | cons r rest ih =>
    intro m hm
    simp only [List.foldl_cons]
    apply ih
    by_cases hkey : normalizeMatchValue r.2 0 = ""
    · simpa [hkey] using hm
    · rw [show (let key := normalizeMatchValue r.2 0
          if key = "" then m else mapSet m key r.1) =
          mapSet m (normalizeMatchValue r.2 0) r.1 from by simp [hkey]]
      rw [mapGet_mapSet_ne m _ _ _ hkey]
      exact hm

/-- C9: MatchIndex construction filters out records whose normalized value
is empty, so the empty key is never present; consequently a folder group
whose name normalizes to the empty string always lands in SkippedNoMatch
and is never matched or written. -/
theorem empty_key_skipped :
    (∀ records : List (String × JsValue), mapGet (buildMatchMap records) "" = none) ∧
    (∀ (records : List (String × JsValue))
      (write : String → List RawFile → Except String Unit)
      (lc : String → String → Bool) (limit : Nat) (kw folder : String)
      (files : List RawFile), normalizeFolderName folder = "" →
      processGroup (buildMatchMap records) write lc limit kw (folder, files) =
        Outcome.skippedNoMatch) := by
  have hempty : ∀ records : List (String × JsValue),
      mapGet (buildMatchMap records) "" = none := by
    intro records
    exact buildMatchMap_foldl_no_empty records [] rfl
  refine ⟨hempty, ?_⟩
  intro records write lc limit kw folder files h
  unfold processGroup
  rw [h, hempty records]

/-- C9 witness: a whitespace-only folder name normalizes to the empty
string and its group is skipped. -/
theorem empty_key_skipped_witness :
    normalizeFolderName "   " = "" ∧
    processGroup (buildMatchMap [("r1", JsValue.str "Alice")])
        (fun _ _ => Except.ok ()) (fun _ _ => true) 10 "封面"
        ("   ", [⟨"1.png", ""⟩]) = Outcome.skippedNoMatch :=
  ⟨by decide,
    empty_key_skipped.2 [("r1", JsValue.str "Alice")] (fun _ _ => Except.ok ())
      (fun _ _ => true) 10 "封面" "   " [⟨"1.png", ""⟩] (by decide)⟩
